import Mathlib

/-!
Verification of the pelican rich-text core.

This file embeds, shallowly, the rich-text storage model of
`src/text/attributed_string.rs` and the reversible multi-cursor editing
commands of `src/ui/history/text_field/text_insertion.rs` and
`src/ui/history/text_field/text_backspace.rs`, and proves the specified
properties about them.

Texts are embedded as `List Char`.  Rust `String::len` (the UTF-8 byte
count) is embedded as `strLen`; Rust byte-indexed slicing of a `String`
is embedded as `sliceBytes`, which returns `none` exactly when Rust
would panic (index out of bounds or not on a character boundary).
Operations that can panic in Rust return `Option`/`Except`, with
`none`/`.error` marking the panic.
-/

namespace Pelican

/-- UTF-8 byte size of one character, as used by Rust `char::len_utf8` /
`String::len`. -/
def charSize (c : Char) : Nat :=
  if c.toNat < 128 then 1
  else if c.toNat < 2048 then 2
  else if c.toNat < 65536 then 3
  else 4

/-- Rust `String::len`: the UTF-8 byte length of a text. -/
def strLen (t : List Char) : Nat := (t.map charSize).sum

theorem one_le_charSize (c : Char) : 1 ≤ charSize c := by
  unfold charSize
  split <;> [skip; split] <;> [simp; skip; split] <;> simp

theorem length_le_strLen (t : List Char) : t.length ≤ strLen t := by
  induction t with
  | nil => simp [strLen]
  | cons c cs ih =>
    have := one_le_charSize c
    simp only [strLen, List.map_cons, List.sum_cons, List.length_cons] at *
    omega

theorem strLen_eq_length {t : List Char} (h : ∀ c ∈ t, charSize c = 1) :
    strLen t = t.length := by
  induction t with
  | nil => rfl
  | cons c cs ih =>
    simp only [strLen, List.map_cons, List.sum_cons, List.length_cons] at *
    rw [h c (by simp)]
    rw [ih (fun x hx => h x (by simp [hx]))]
    omega

/-- Rust `&s[..n]` on `List Char`s seen as UTF-8 byte sequences: take the
characters making up the first `n` bytes, `none` if `n` overruns the text
or falls inside a character (Rust panics there). -/
def takeBytes : List Char → Nat → Option (List Char)
  | _, 0 => some []
  | [], _ + 1 => none
  | c :: cs, n + 1 =>
    if charSize c ≤ n + 1 then
      (takeBytes cs (n + 1 - charSize c)).map (c :: ·)
    else none

/-- Rust `&s[n..]` on `List Char`s seen as UTF-8 byte sequences. -/
def dropBytes : List Char → Nat → Option (List Char)
  | cs, 0 => some cs
  | [], _ + 1 => none
  | c :: cs, n + 1 =>
    if charSize c ≤ n + 1 then dropBytes cs (n + 1 - charSize c)
    else none

/-- Rust `&s[a..b]` (byte-indexed slice of a `String`); `none` exactly
when Rust panics. -/
def sliceBytes (t : List Char) (a b : Nat) : Option (List Char) :=
  if a ≤ b then
    match dropBytes t a with
    | some rest => takeBytes rest (b - a)
    | none => none
  else none

/-- `graphics::Color` (only its identity matters to this core; `BLACK`
etc. are the seeded constants used by `AttributedString::new` and the
tests). -/
structure Color where
  red : Nat
  green : Nat
  blue : Nat
  alpha : Nat
deriving DecidableEq, Repr

def Color.BLACK : Color := ⟨0, 0, 0, 255⟩
def Color.RED : Color := ⟨255, 0, 0, 255⟩
def Color.BLUE : Color := ⟨0, 0, 255, 255⟩
def Color.GREEN : Color := ⟨0, 255, 0, 255⟩

/-- `graphics::Font` (opaque to this core apart from its default). -/
structure Font where
  name : List Char
  size : Nat
deriving DecidableEq, Repr

def Font.default : Font := ⟨['A', 'r', 'i', 'a', 'l'], 17⟩

/-- `Attribute` from `attributed_string.rs`. -/
inductive Attribute where
  | color (c : Color)
  | font (f : Font)
deriving DecidableEq, Repr

/-- `Key` from `attributed_string.rs`. -/
inductive Key where
  | Color
  | Font
deriving DecidableEq, Repr

/-- `AttributeContainer = HashMap<Key, Attribute>`, embedded as its
lookup function. -/
def AttributeContainer : Type := Key → Option Attribute

/-- `HashMap::new()`. -/
def AttributeContainer.empty : AttributeContainer := fun _ => none

/-- `HashMap::insert` (overwrites any previous value for the key). -/
def AttributeContainer.insert (m : AttributeContainer) (k : Key) (a : Attribute) :
    AttributeContainer :=
  fun k2 => if k2 = k then some a else m k2

/-- `AttributedString` (the `id: Uuid` field is omitted: it is used only
by the `PartialEq` impl, which no verified property touches). -/
structure AttributedString where
  text : List Char
  attributes : List AttributeContainer
  default_attributes : AttributeContainer

/-- The two distinct panic sites of `AttributedString::set_attribute_for`:
the explicit `panic!("Index out of bounds")` guard, and the implicit
panic of `attributes[index]` on the per-character vector. -/
inductive SetFault where
  | explicitBounds
  | vecIndex
deriving DecidableEq, Repr

/-- `AttributedString::new`: empty per-character table for every char of
the text, defaults seeded with black color and the default font. -/
def AttributedString.new (text : List Char) : AttributedString :=
  { text := text
    attributes := text.map fun _ => AttributeContainer.empty
    default_attributes := fun k =>
      match k with
      | Key.Color => some (Attribute.color Color.BLACK)
      | Key.Font => some (Attribute.font Font.default) }

/-- `AttributedString::set_default_attribute`. -/
def AttributedString.set_default_attribute (s : AttributedString) (key : Key)
    (attr : Attribute) : AttributedString :=
  { s with default_attributes := s.default_attributes.insert key attr }

/-- `AttributedString::set_attribute_for`.  The explicit guard compares
`index` with `self.text.len()` (the UTF-8 byte length); the subsequent
`attributes[index]` faults when `index` reaches the per-character vector
length. -/
def AttributedString.set_attribute_for (s : AttributedString) (index : Nat)
    (key : Key) (attr : Attribute) : Except SetFault AttributedString :=
  if strLen s.text ≤ index then .error .explicitBounds
  else if s.attributes.length ≤ index then .error .vecIndex
  else .ok { s with
    attributes := s.attributes.set index
      ((s.attributes.getD index AttributeContainer.empty).insert key attr) }

/-- `AttributedString::get_attribute_for`: bounds-checks against the
per-character vector, then falls back from the character's own table to
the default table; `none` is the panic (out of bounds, or `unwrap` of a
key absent from both tables). -/
def AttributedString.get_attribute_for (s : AttributedString) (index : Nat)
    (key : Key) : Option Attribute :=
  if s.attributes.length ≤ index then none
  else
    match (s.attributes.getD index AttributeContainer.empty) key with
    | some a => some a
    | none => s.default_attributes key

/-- `AttributedSubstring`: a `[start, end)` window; the owning
`AttributedString` is passed explicitly to its operations (`stop` stands
for the source's `end` field, a Lean keyword). -/
structure AttributedSubstring where
  start : Nat
  stop : Nat
deriving DecidableEq, Repr

/-- Helper of `AttributedString::lines`: sweep the characters with their
character index `i`, closing a range at each newline; the final range is
closed with `total = self.text.len()` (the byte length). -/
def linesAux : List Char → Nat → Nat → Nat → List (Nat × Nat)
  | [], start, _, total => [(start, total)]
  | c :: cs, start, i, total =>
    if c = '\n' then (start, i) :: linesAux cs (i + 1) (i + 1) total
    else linesAux cs start (i + 1) total

/-- `AttributedString::lines`, as the list of `(start, end)` ranges of
the produced `AttributedSubstring`s. -/
def AttributedString.lines (s : AttributedString) : List AttributedSubstring :=
  (linesAux s.text 0 0 (strLen s.text)).map fun r => ⟨r.1, r.2⟩

/-- `AttributedString::substring_for_char`: no bounds validation. -/
def AttributedString.substring_for_char (_ : AttributedString) (char_index : Nat) :
    AttributedSubstring :=
  ⟨char_index, char_index + 1⟩

/-- `AttributedSubstring::text`: `&self.attributed_string.text[self.start..self.end]`,
a byte-indexed slice. -/
def AttributedSubstring.text (v : AttributedSubstring) (s : AttributedString) :
    Option (List Char) :=
  sliceBytes s.text v.start v.stop

/-- `AttributedSubstring::set_attribute_for`: delegate with the local
index translated by `start`. -/
def AttributedSubstring.set_attribute_for (v : AttributedSubstring)
    (s : AttributedString) (index : Nat) (key : Key) (attr : Attribute) :
    Except SetFault AttributedString :=
  s.set_attribute_for (v.start + index) key attr

/-- `AttributedSubstring::get_attribute_for`: delegate with the local
index translated by `start`. -/
def AttributedSubstring.get_attribute_for (v : AttributedSubstring)
    (s : AttributedString) (index : Nat) (key : Key) : Option Attribute :=
  s.get_attribute_for (v.start + index) key

/-- `AttributedSubstring::substring_for_char`: delegate with the local
index translated by `start`. -/
def AttributedSubstring.substring_for_char (v : AttributedSubstring)
    (s : AttributedString) (char_index : Nat) : AttributedSubstring :=
  s.substring_for_char (v.start + char_index)

/-- The documented `TextView` invariant `0 ≤ start ≤ end ≤ owner.length()`. -/
def viewInvariant (s : AttributedString) (v : AttributedSubstring) : Prop :=
  v.start ≤ v.stop ∧ v.stop ≤ s.text.length

instance (s : AttributedString) (v : AttributedSubstring) :
    Decidable (viewInvariant s v) := by
  unfold viewInvariant; infer_instance

/-- `true` iff `set_attribute_for` did not panic. -/
def setResultOk : Except SetFault AttributedString → Bool
  | .ok _ => true
  | .error _ => false

/-- The state produced by a successful `set_attribute_for` (default
otherwise). -/
def setResultState (r : Except SetFault AttributedString) (d : AttributedString) :
    AttributedString :=
  match r with
  | .ok s => s
  | .error _ => d

/-- The owning string after a `set_attribute_for` issued through a view. -/
def setThroughView (s : AttributedString) (v : AttributedSubstring) (j : Nat)
    (k : Key) (a : Attribute) : AttributedString :=
  setResultState (v.set_attribute_for s j k a) s

theorem getD_set_self {α : Type _} (l : List α) (i : Nat) (a d : α)
    (h : i < l.length) : (l.set i a).getD i d = a := by
  induction l generalizing i with
  | nil => simp at h
  | cons x xs ih =>
    cases i with
    | zero => rfl
    | succ n =>
      simp only [List.set_cons_succ, List.getD_cons_succ]
      exact ih n (by simpa using h)

theorem getD_set_ne {α : Type _} (l : List α) (i j : Nat) (a d : α)
    (h : i ≠ j) : (l.set i a).getD j d = l.getD j d := by
  induction l generalizing i j with
  | nil => simp [List.set_nil]
  | cons x xs ih =>
    cases i with
    | zero =>
      cases j with
      | zero => exact absurd rfl h
      | succ m => rfl
    | succ n =>
      cases j with
      | zero => rfl
      | succ m =>
        simp only [List.set_cons_succ, List.getD_cons_succ]
        exact ih n m (by omega)

theorem length_lt_strLen {t : List Char} {c : Char} (hc : c ∈ t)
    (h2 : 2 ≤ charSize c) : t.length < strLen t := by
  induction t with
  | nil => cases hc
  | cons d ds ih =>
    have hds := length_le_strLen ds
    have hd := one_le_charSize d
    rcases List.mem_cons.1 hc with rfl | hmem
    · simp only [strLen, List.map_cons, List.sum_cons, List.length_cons] at *
      omega
    · have := ih hmem
      simp only [strLen, List.map_cons, List.sum_cons, List.length_cons] at *
      omega

/-- C10: `substring_for_char` performs no bounds validation: for every
index `i` (including `i ≥` the text length) it returns the one-character
view `[i, i+1)` without faulting, and for every `i` at or past the text
length the documented view invariant `start ≤ end ≤ owner.length()` is
violated by the view it hands out. -/
theorem substring_for_char_unchecked :
    (∀ (s : AttributedString) (i : Nat),
        s.substring_for_char i = ⟨i, i + 1⟩) ∧
    (∀ (s : AttributedString) (i : Nat), s.text.length ≤ i →
        ¬ viewInvariant s (s.substring_for_char i)) := by
  refine ⟨fun s i => rfl, fun s i h hinv => ?_⟩
  have h2 : i + 1 ≤ s.text.length := hinv.2
  omega

/-- Witness for C10 at a concrete input: the one-character view at index
5 of the one-character string `"a"` is `[5, 6)` and breaks the invariant. -/
theorem substring_for_char_unchecked_witness :
    (AttributedString.new ['a']).substring_for_char 5 = ⟨5, 6⟩ ∧
    ¬ viewInvariant (AttributedString.new ['a'])
        ((AttributedString.new ['a']).substring_for_char 5) :=
  ⟨substring_for_char_unchecked.1 _ 5,
    substring_for_char_unchecked.2 _ 5 (by decide)⟩

/-- C9: `set_attribute_for`'s explicit bounds guard compares against the
UTF-8 byte length while the per-character vector (and `get_attribute_for`'s
check) use the character count, so for any text containing a multi-byte
character every index in `[char count, byte length)` passes the explicit
guard and faults on the vector indexing instead, while `get_attribute_for`
already rejects it. -/
theorem set_get_fault_boundaries (t : List Char) (k : Key) (a : Attribute)
    (c : Char) (hc : c ∈ t) (hsize : 2 ≤ charSize c) :
    t.length < strLen t ∧
    ∀ i, t.length ≤ i → i < strLen t →
      (AttributedString.new t).set_attribute_for i k a = .error .vecIndex ∧
      (AttributedString.new t).get_attribute_for i k = none := by
  refine ⟨length_lt_strLen hc hsize, fun i hlo hhi => ?_⟩
  have hlen : (AttributedString.new t).attributes.length = t.length := by
    simp [AttributedString.new]
  have htext : (AttributedString.new t).text = t := rfl
  constructor
  · unfold AttributedString.set_attribute_for
    rw [htext, hlen]
    rw [if_neg (by omega), if_pos hlo]
  · unfold AttributedString.get_attribute_for
    rw [hlen, if_pos hlo]

/-- Witness for C9 at a concrete input: in `"é"` (one character, two
bytes) index 1 passes the byte-length guard yet faults on the vector and
is rejected by `get_attribute_for`. -/
theorem set_get_fault_boundaries_witness :
    (['é'].length < strLen ['é']) ∧
    (AttributedString.new ['é']).set_attribute_for 1 Key.Color
        (Attribute.color Color.RED) = .error .vecIndex ∧
    (AttributedString.new ['é']).get_attribute_for 1 Key.Color = none :=
  have h := set_get_fault_boundaries ['é'] Key.Color (Attribute.color Color.RED)
    'é' (by decide) (by decide)
  ⟨h.1, (h.2 1 (by decide) (by decide)).1, (h.2 1 (by decide) (by decide)).2⟩

/-- C8: `set_attribute_for` faults exactly when the index is out of
bounds of the character sequence, and on every in-bounds index it
succeeds and a subsequent `get_attribute_for` returns the stored value
(stated for strings whose per-character table is in sync with the text,
the documented length invariant). -/
theorem set_attribute_for_ok_iff (s : AttributedString) (i : Nat) (k : Key)
    (a : Attribute) (hinv : s.attributes.length = s.text.length) :
    (setResultOk (s.set_attribute_for i k a) = false ↔ s.text.length ≤ i) ∧
    (i < s.text.length →
      s.set_attribute_for i k a =
        .ok (setResultState (s.set_attribute_for i k a) s) ∧
      (setResultState (s.set_attribute_for i k a) s).get_attribute_for i k =
        some a) := by
  have hbytes : s.text.length ≤ strLen s.text := length_le_strLen s.text
  unfold AttributedString.set_attribute_for
  by_cases h1 : strLen s.text ≤ i
  · rw [if_pos h1]
    exact ⟨by simp [setResultOk]; omega, fun hlt => absurd h1 (by omega)⟩
  · rw [if_neg h1]
    by_cases h2 : s.attributes.length ≤ i
    · rw [if_pos h2]
      exact ⟨by simp [setResultOk]; omega, fun hlt => absurd (hinv ▸ h2) (by omega)⟩
    · rw [if_neg h2]
      refine ⟨by simp [setResultOk]; omega, fun hlt => ⟨rfl, ?_⟩⟩
      unfold AttributedString.get_attribute_for setResultState
      simp only [List.length_set]
      rw [if_neg h2]
      rw [getD_set_self _ _ _ _ (by omega)]
      simp [AttributeContainer.insert]

/-- Witness for C8 at a concrete input: setting red at index 0 of `"ab"`
succeeds and reads back. -/
theorem set_attribute_for_ok_iff_witness :
    (setResultOk ((AttributedString.new ['a', 'b']).set_attribute_for 0
        Key.Color (Attribute.color Color.RED)) = false ↔
      (AttributedString.new ['a', 'b']).text.length ≤ 0) ∧
    ((AttributedString.new ['a', 'b']).set_attribute_for 0 Key.Color
        (Attribute.color Color.RED) =
      .ok (setResultState ((AttributedString.new ['a', 'b']).set_attribute_for 0
        Key.Color (Attribute.color Color.RED)) (AttributedString.new ['a', 'b'])) ∧
     (setResultState ((AttributedString.new ['a', 'b']).set_attribute_for 0
        Key.Color (Attribute.color Color.RED))
        (AttributedString.new ['a', 'b'])).get_attribute_for 0 Key.Color =
      some (Attribute.color Color.RED)) :=
  have h := set_attribute_for_ok_iff (AttributedString.new ['a', 'b']) 0
    Key.Color (Attribute.color Color.RED) (by simp [AttributedString.new])
  ⟨h.1, h.2 (by decide)⟩

/-- C5: attribute fallback: on every in-bounds index, `get_attribute_for`
returns the character's explicitly set value when present and the current
default for the key otherwise; changing the default changes the result
exactly for the characters without an explicit override. -/
theorem get_attribute_fallback (s : AttributedString) (i : Nat) (k : Key)
    (v : Attribute) (h : i < s.attributes.length) :
    (∀ a, (s.attributes.getD i AttributeContainer.empty) k = some a →
        s.get_attribute_for i k = some a) ∧
    ((s.attributes.getD i AttributeContainer.empty) k = none →
        s.get_attribute_for i k = s.default_attributes k) ∧
    ((s.attributes.getD i AttributeContainer.empty) k = none →
        (s.set_default_attribute k v).get_attribute_for i k = some v) ∧
    (∀ a, (s.attributes.getD i AttributeContainer.empty) k = some a →
        (s.set_default_attribute k v).get_attribute_for i k = some a) := by
  unfold AttributedString.get_attribute_for AttributedString.set_default_attribute
  simp only [if_neg (by omega : ¬ s.attributes.length ≤ i)]
  refine ⟨fun a ha => by rw [ha], fun ha => by rw [ha], fun ha => ?_,
    fun a ha => by rw [ha]⟩
  rw [ha]
  simp [AttributeContainer.insert]

/-- Witness for C5 at a concrete input: in `"ab"` with red explicitly set
at index 0, reads fall back to the default at index 1 and track a default
change to blue, while index 0 keeps its override. -/
theorem get_attribute_fallback_witness :
    ((setThroughView (AttributedString.new ['a', 'b']) ⟨0, 1⟩ 0 Key.Color
        (Attribute.color Color.RED)).get_attribute_for 0 Key.Color =
      some (Attribute.color Color.RED)) ∧
    ((setThroughView (AttributedString.new ['a', 'b']) ⟨0, 1⟩ 0 Key.Color
        (Attribute.color Color.RED)).get_attribute_for 1 Key.Color =
      (setThroughView (AttributedString.new ['a', 'b']) ⟨0, 1⟩ 0 Key.Color
        (Attribute.color Color.RED)).default_attributes Key.Color) ∧
    (((setThroughView (AttributedString.new ['a', 'b']) ⟨0, 1⟩ 0 Key.Color
        (Attribute.color Color.RED)).set_default_attribute Key.Color
        (Attribute.color Color.BLUE)).get_attribute_for 1 Key.Color =
      some (Attribute.color Color.BLUE)) ∧
    (((setThroughView (AttributedString.new ['a', 'b']) ⟨0, 1⟩ 0 Key.Color
        (Attribute.color Color.RED)).set_default_attribute Key.Color
        (Attribute.color Color.BLUE)).get_attribute_for 0 Key.Color =
      some (Attribute.color Color.RED)) :=
  have h0 := get_attribute_fallback
    (setThroughView (AttributedString.new ['a', 'b']) ⟨0, 1⟩ 0 Key.Color
      (Attribute.color Color.RED)) 0 Key.Color (Attribute.color Color.BLUE)
    (by decide)
  have h1 := get_attribute_fallback
    (setThroughView (AttributedString.new ['a', 'b']) ⟨0, 1⟩ 0 Key.Color
      (Attribute.color Color.RED)) 1 Key.Color (Attribute.color Color.BLUE)
    (by decide)
  ⟨h0.1 _ (by decide), h1.2.1 (by decide), h1.2.2.1 (by decide),
    h0.2.2.2 _ (by decide)⟩

/-- C7: writing an attribute through a view at local index `j` succeeds
(under the in-bounds side conditions of `set_attribute_for`) and changes
exactly the owner's character `start + j`: the new value is observable
through the owner and through every view whose range covers that absolute
position, all other positions and keys read unchanged (through the owner
and through any view), and nested views compose by index translation. -/
theorem view_aliasing (s : AttributedString) (v : AttributedSubstring)
    (j : Nat) (k : Key) (a : Attribute)
    (h1 : v.start + j < strLen s.text)
    (h2 : v.start + j < s.attributes.length) :
    v.set_attribute_for s j k a = .ok (setThroughView s v j k a) ∧
    (setThroughView s v j k a).get_attribute_for (v.start + j) k = some a ∧
    (∀ (w : AttributedSubstring) (j2 : Nat), w.start + j2 = v.start + j →
        w.get_attribute_for (setThroughView s v j k a) j2 k = some a) ∧
    (∀ (i : Nat) (k2 : Key), i ≠ v.start + j →
        (setThroughView s v j k a).get_attribute_for i k2 =
          s.get_attribute_for i k2) ∧
    (∀ k2, k2 ≠ k →
        (setThroughView s v j k a).get_attribute_for (v.start + j) k2 =
          s.get_attribute_for (v.start + j) k2) ∧
    (∀ (w : AttributedSubstring) (j2 : Nat) (k2 : Key),
        w.start + j2 ≠ v.start + j →
        w.get_attribute_for (setThroughView s v j k a) j2 k2 =
          w.get_attribute_for s j2 k2) ∧
    v.substring_for_char s j = s.substring_for_char (v.start + j) := by
  have hok : v.set_attribute_for s j k a = .ok (setThroughView s v j k a) := by
    unfold setThroughView setResultState AttributedSubstring.set_attribute_for
      AttributedString.set_attribute_for
    rw [if_neg (by omega), if_neg (by omega)]
  have hstate : setThroughView s v j k a =
      { s with attributes := s.attributes.set (v.start + j) ((s.attributes.getD (v.start + j) AttributeContainer.empty).insert k a) } := by
    unfold setThroughView setResultState AttributedSubstring.set_attribute_for
      AttributedString.set_attribute_for
    rw [if_neg (by omega), if_neg (by omega)]
  have hget : (setThroughView s v j k a).get_attribute_for (v.start + j) k =
      some a := by
    rw [hstate]
    unfold AttributedString.get_attribute_for
    simp only [List.length_set]
    rw [if_neg (by omega), getD_set_self _ _ _ _ (by omega)]
    simp [AttributeContainer.insert]
  have hother : ∀ (i : Nat) (k2 : Key), i ≠ v.start + j →
      (setThroughView s v j k a).get_attribute_for i k2 =
        s.get_attribute_for i k2 := by
    intro i k2 hi
    rw [hstate]
    unfold AttributedString.get_attribute_for
    simp only [List.length_set]
    rw [getD_set_ne _ _ _ _ _ (fun hh => hi hh.symm)]
  have hsamekey : ∀ k2, k2 ≠ k →
      (setThroughView s v j k a).get_attribute_for (v.start + j) k2 =
        s.get_attribute_for (v.start + j) k2 := by
    intro k2 hk
    rw [hstate]
    unfold AttributedString.get_attribute_for
    simp only [List.length_set]
    rw [getD_set_self _ _ _ _ (by omega)]
    simp only [AttributeContainer.insert, if_neg hk]
  refine ⟨hok, hget, fun w j2 hw => ?_, hother, hsamekey, fun w j2 k2 hw => ?_,
    rfl⟩
  · unfold AttributedSubstring.get_attribute_for
    rw [hw]; exact hget
  · unfold AttributedSubstring.get_attribute_for
    exact hother _ _ hw

/-- Witness for C7 at a concrete input: in `"abc"`, the view `[1,2)`
writes red at local 0; the owner sees it at 1, the covering view `[0,3)`
sees it at local 1, position 0 and the view `[2,3)` read unchanged, and
nesting translates. -/
theorem view_aliasing_witness :
    (AttributedSubstring.set_attribute_for ⟨1, 2⟩ (AttributedString.new
        ['a', 'b', 'c']) 0 Key.Color (Attribute.color Color.RED) =
      .ok (setThroughView (AttributedString.new ['a', 'b', 'c']) ⟨1, 2⟩ 0
        Key.Color (Attribute.color Color.RED))) ∧
    ((setThroughView (AttributedString.new ['a', 'b', 'c']) ⟨1, 2⟩ 0 Key.Color
        (Attribute.color Color.RED)).get_attribute_for 1 Key.Color =
      some (Attribute.color Color.RED)) ∧
    (AttributedSubstring.get_attribute_for ⟨0, 3⟩ (setThroughView
        (AttributedString.new ['a', 'b', 'c']) ⟨1, 2⟩ 0 Key.Color
        (Attribute.color Color.RED)) 1 Key.Color =
      some (Attribute.color Color.RED)) ∧
    ((setThroughView (AttributedString.new ['a', 'b', 'c']) ⟨1, 2⟩ 0 Key.Color
        (Attribute.color Color.RED)).get_attribute_for 0 Key.Color =
      (AttributedString.new ['a', 'b', 'c']).get_attribute_for 0 Key.Color) ∧
    (AttributedSubstring.get_attribute_for ⟨2, 3⟩ (setThroughView
        (AttributedString.new ['a', 'b', 'c']) ⟨1, 2⟩ 0 Key.Color
        (Attribute.color Color.RED)) 0 Key.Color =
      AttributedSubstring.get_attribute_for ⟨2, 3⟩
        (AttributedString.new ['a', 'b', 'c']) 0 Key.Color) ∧
    AttributedSubstring.substring_for_char ⟨1, 2⟩
        (AttributedString.new ['a', 'b', 'c']) 0 =
      (AttributedString.new ['a', 'b', 'c']).substring_for_char 1 :=
  have h := view_aliasing (AttributedString.new ['a', 'b', 'c']) ⟨1, 2⟩ 0
    Key.Color (Attribute.color Color.RED) (by decide) (by decide)
  ⟨h.1, h.2.1, h.2.2.1 ⟨0, 3⟩ 1 rfl, h.2.2.2.1 0 Key.Color (by decide),
    h.2.2.2.2.2.1 ⟨2, 3⟩ 0 Key.Color (by decide), h.2.2.2.2.2.2⟩

/-- Splitting a text on newline characters, every segment excluding its
separator and the final segment always present (the reference behaviour
`lines` is checked against). -/
def splitNl : List Char → List (List Char)
  | [] => [[]]
  | c :: cs =>
    if c = '\n' then [] :: splitNl cs
    else
      match splitNl cs with
      | s :: rest => (c :: s) :: rest
      | [] => [[c]]

/-- Inverse of `splitNl`: interleave the segments with newlines. -/
def joinNl : List (List Char) → List Char
  | [] => []
  | [s] => s
  | s :: s2 :: rest => s ++ '\n' :: joinNl (s2 :: rest)

/-- The character ranges of consecutive segments separated by one
character, starting at `pos`. -/
def rangesOf : List (List Char) → Nat → List (Nat × Nat)
  | [], _ => []
  | s :: rest, pos => (pos, pos + s.length) :: rangesOf rest (pos + s.length + 1)

/-- Character-indexed slice `[a, b)` of a text. -/
def charSlice (t : List Char) (a b : Nat) : List Char := (t.drop a).take (b - a)

theorem splitNl_ne_nil (t : List Char) : splitNl t ≠ [] := by
  cases t with
  | nil => simp [splitNl]
  | cons c cs =>
    unfold splitNl
    by_cases h : c = '\n'
    · simp [h]
    · rw [if_neg h]
      rcases splitNl cs with _ | ⟨s, rest⟩ <;> simp

theorem rangesOf_head_start (segs : List (List Char)) (p q : Nat) :
    (match segs with
      | [] => ([] : List (Nat × Nat))
      | s :: rest => (q, p + s.length) :: rangesOf rest (p + s.length + 1)) =
    (rangesOf segs p).map
      (fun r => if r.1 = p then (q, r.2) else r) := by
  cases segs with
  | nil => rfl
  | cons s rest =>
    simp only [rangesOf, List.map_cons, if_pos rfl]
    congr 1
    have : ∀ (gs : List (List Char)) (m : Nat), p < m →
        (rangesOf gs m).map (fun r => if r.1 = p then (q, r.2) else r) =
          rangesOf gs m := by
      intro gs
      induction gs with
      | nil => intro m _; rfl
      | cons g rest2 ih =>
        intro m hm
        simp only [rangesOf, List.map_cons]
        rw [if_neg (by omega), ih (m + g.length + 1) (by omega)]
    rw [this rest (p + s.length + 1) (by omega)]

theorem linesAux_splitNl (cs : List Char) :
    ∀ start i, linesAux cs start i (i + cs.length) =
      match splitNl cs with
      | [] => []
      | s :: rest => (start, i + s.length) :: rangesOf rest (i + s.length + 1) := by
  induction cs with
  | nil => intro start i; simp [linesAux, splitNl, rangesOf]
  | cons c cs ih =>
    intro start i
    unfold linesAux splitNl
    by_cases h : c = '\n'
    · rw [if_pos h, if_pos h]
      have harith : i + (c :: cs).length = (i + 1) + cs.length := by
        simp; omega
      rw [harith, ih (i + 1) (i + 1)]
      rcases hs : splitNl cs with _ | ⟨s, rest⟩
      · exact absurd hs (splitNl_ne_nil cs)
      · simp only [List.length_nil]
        rfl
    · rw [if_neg h, if_neg h]
      have harith : i + (c :: cs).length = (i + 1) + cs.length := by
        simp; omega
      rw [harith, ih start (i + 1)]
      rcases hs : splitNl cs with _ | ⟨s, rest⟩
      · exact absurd hs (splitNl_ne_nil cs)
      · simp only [List.length_cons]
        have h1 : i + 1 + s.length = i + (s.length + 1) := by omega
        rw [h1]

theorem joinNl_split (t : List Char) : joinNl (splitNl t) = t := by
  induction t with
  | nil => rfl
  | cons c cs ih =>
    unfold splitNl
    by_cases h : c = '\n'
    · rw [if_pos h]
      rcases hs : splitNl cs with _ | ⟨s, rest⟩
      · exact absurd hs (splitNl_ne_nil cs)
      · rw [hs] at ih
        subst h
        show joinNl ([] :: s :: rest) = '\n' :: cs
        have hjoin : joinNl ([] :: s :: rest) = [] ++ '\n' :: joinNl (s :: rest) :=
          rfl
        rw [hjoin, ih]
        rfl
    · rw [if_neg h]
      rcases hs : splitNl cs with _ | ⟨s, rest⟩
      · exact absurd hs (splitNl_ne_nil cs)
      · rw [hs] at ih
        cases rest with
        | nil => simpa [joinNl] using congrArg (c :: ·) ih
        | cons r2 rest2 =>
          show joinNl ((c :: s) :: r2 :: rest2) = c :: cs
          unfold joinNl
          simpa [joinNl] using congrArg (c :: ·) ih

theorem rangesOf_map_charSlice (segs : List (List Char)) :
    ∀ (pos : Nat) (t : List Char), pos ≤ t.length →
      t.drop pos = joinNl segs →
      (rangesOf segs pos).map (fun r => charSlice t r.1 r.2) = segs ∧
      ∀ r ∈ rangesOf segs pos, r.1 ≤ r.2 ∧ r.2 ≤ t.length := by
  induction segs with
  | nil => intro pos t _ _; exact ⟨rfl, by simp [rangesOf]⟩
  | cons s rest ih =>
    intro pos t hpos hdrop
    have hlen_drop : (t.drop pos).length = t.length - pos := by
      simp [List.length_drop]
    have hbound : pos + s.length ≤ t.length := by
      have : s.length ≤ (joinNl (s :: rest)).length := by
        cases rest with
        | nil => simp [joinNl]
        | cons r2 rest2 => simp [joinNl]
      rw [← hdrop] at this
      omega
    have hslice : charSlice t pos (pos + s.length) = s := by
      unfold charSlice
      rw [hdrop]
      have h1 : pos + s.length - pos = s.length := by omega
      rw [h1]
      cases rest with
      | nil => simp [joinNl]
      | cons r2 rest2 =>
        show (s ++ '\n' :: joinNl (r2 :: rest2)).take s.length = s
        rw [List.take_append_eq_append_take]
        simp
    cases rest with
    | nil =>
      refine ⟨by simp [rangesOf, hslice], ?_⟩
      intro r hr
      simp only [rangesOf, List.mem_singleton] at hr
      subst hr
      exact ⟨by omega, hbound⟩
    | cons r2 rest2 =>
      have hdrop2 : t.drop (pos + s.length + 1) = joinNl (r2 :: rest2) := by
        have : t.drop (pos + s.length + 1) = (t.drop pos).drop (s.length + 1) := by
          rw [List.drop_drop]; congr 1
        rw [this, hdrop]
        show (s ++ '\n' :: joinNl (r2 :: rest2)).drop (s.length + 1) =
          joinNl (r2 :: rest2)
        have : s ++ '\n' :: joinNl (r2 :: rest2) =
            (s ++ ['\n']) ++ joinNl (r2 :: rest2) := by simp
        rw [this, List.drop_append_eq_append_drop]
        simp
      have hpos2 : pos + s.length + 1 ≤ t.length := by
        have h2 : (joinNl (s :: r2 :: rest2)).length = t.length - pos := by
          rw [← hdrop, hlen_drop]
        have : (joinNl (s :: r2 :: rest2)).length = s.length + 1 +
            (joinNl (r2 :: rest2)).length := by
          show (s ++ '\n' :: joinNl (r2 :: rest2)).length = _
          simp; omega
        omega
      obtain ⟨ihmap, ihbnd⟩ := ih (pos + s.length + 1) t hpos2 hdrop2
      have hunf : rangesOf (s :: r2 :: rest2) pos =
          (pos, pos + s.length) :: rangesOf (r2 :: rest2) (pos + s.length + 1) :=
        rfl
      refine ⟨?_, ?_⟩
      · rw [hunf, List.map_cons, hslice, ihmap]
      · intro r hr
        rw [hunf, List.mem_cons] at hr
        rcases hr with rfl | hr
        · exact ⟨by omega, hbound⟩
        · exact ihbnd r hr

theorem mem_of_mem_drop {α : Type _} {t : List α} {n : Nat} {c : α}
    (h : c ∈ t.drop n) : c ∈ t := by
  have := List.take_append_drop n t
  rw [← this]
  exact List.mem_append.2 (Or.inr h)

theorem dropBytes_ascii (t : List Char) (n : Nat)
    (h : ∀ c ∈ t, charSize c = 1) (hn : n ≤ t.length) :
    dropBytes t n = some (t.drop n) := by
  induction t generalizing n with
  | nil =>
    cases n with
    | zero => rfl
    | succ m => simp at hn
  | cons c cs ih =>
    cases n with
    | zero => rfl
    | succ m =>
      have hc : charSize c = 1 := h c (by simp)
      unfold dropBytes
      rw [if_pos (by omega), hc]
      simpa using ih m (fun x hx => h x (List.mem_cons_of_mem c hx))
        (by simp at hn; omega)

theorem takeBytes_ascii (t : List Char) (n : Nat)
    (h : ∀ c ∈ t, charSize c = 1) (hn : n ≤ t.length) :
    takeBytes t n = some (t.take n) := by
  induction t generalizing n with
  | nil =>
    cases n with
    | zero => rfl
    | succ m => simp at hn
  | cons c cs ih =>
    cases n with
    | zero => rfl
    | succ m =>
      have hc : charSize c = 1 := h c (by simp)
      unfold takeBytes
      rw [if_pos (by omega), hc]
      have hm := ih m (fun x hx => h x (List.mem_cons_of_mem c hx))
        (by simp at hn; omega)
      simp [hm]

theorem sliceBytes_ascii (t : List Char) (a b : Nat)
    (h : ∀ c ∈ t, charSize c = 1) (hab : a ≤ b) (hb : b ≤ t.length) :
    sliceBytes t a b = some (charSlice t a b) := by
  unfold sliceBytes
  rw [if_pos hab, dropBytes_ascii t a h (by omega)]
  exact takeBytes_ascii (t.drop a)
    (b - a) (fun c hc => h c (mem_of_mem_drop hc))
    (by simp [List.length_drop]; omega)

theorem splitNl_length_count (t : List Char) :
    (splitNl t).length = t.count '\n' + 1 := by
  induction t with
  | nil => simp [splitNl]
  | cons c cs ih =>
    unfold splitNl
    by_cases h : c = '\n'
    · subst h
      simp [List.count_cons, ih]
    · rw [if_neg h]
      rcases hs : splitNl cs with _ | ⟨s, rest⟩
      · exact absurd hs (splitNl_ne_nil cs)
      · rw [hs] at ih
        simp only [List.length_cons] at *
        rw [List.count_cons]
        simp [h, ih]

theorem rangesOf_length (segs : List (List Char)) :
    ∀ pos, (rangesOf segs pos).length = segs.length := by
  induction segs with
  | nil => intro pos; rfl
  | cons s rest ih => intro pos; simp [rangesOf, ih]

/-- C6 (amended to single-byte texts): for every text whose characters
are all one UTF-8 byte, `lines()` splits on the newline character: the
returned views are exactly the character ranges of the split segments
(each excluding its separator), each view's text is the corresponding
segment, and the number of lines is the newline count plus one, so the
final segment is always present even with no trailing newline. -/
theorem lines_splits_on_newline (s : AttributedString)
    (hascii : ∀ c ∈ s.text, charSize c = 1) :
    s.lines = (rangesOf (splitNl s.text) 0).map
      (fun r => (⟨r.1, r.2⟩ : AttributedSubstring)) ∧
    s.lines.map (fun v => v.text s) = (splitNl s.text).map some ∧
    s.lines.length = s.text.count '\n' + 1 := by
  have h1 : strLen s.text = 0 + s.text.length := by
    rw [strLen_eq_length hascii]; omega
  have hlines : s.lines = (rangesOf (splitNl s.text) 0).map
      (fun r => (⟨r.1, r.2⟩ : AttributedSubstring)) := by
    unfold AttributedString.lines
    rw [h1, linesAux_splitNl]
    rcases hs : splitNl s.text with _ | ⟨s0, rest⟩
    · exact absurd hs (splitNl_ne_nil _)
    · rfl
  obtain ⟨hmap, hbnd⟩ := rangesOf_map_charSlice (splitNl s.text) 0 s.text
    (Nat.zero_le _) (by rw [List.drop_zero, joinNl_split])
  refine ⟨hlines, ?_, ?_⟩
  · rw [hlines, List.map_map]
    conv_rhs => rw [← hmap]
    rw [List.map_map]
    apply List.map_congr_left
    intro r hr
    show AttributedSubstring.text ⟨r.1, r.2⟩ s = some (charSlice s.text r.1 r.2)
    unfold AttributedSubstring.text
    exact sliceBytes_ascii s.text r.1 r.2 hascii (hbnd r hr).1 (hbnd r hr).2
  · rw [hlines, List.length_map, rangesOf_length, splitNl_length_count]

/-- Witness for C6's amended statement at the spec's own example
`"Hello, world!\nGoodbye, world!"`, whose lines are `"Hello, world!"`
and `"Goodbye, world!"` with character ranges `[0,13)` and `[14,29)`. -/
theorem lines_splits_on_newline_witness :
    ((AttributedString.new "Hello, world!\nGoodbye, world!".toList).lines =
      (rangesOf (splitNl (AttributedString.new
        "Hello, world!\nGoodbye, world!".toList).text) 0).map
        (fun r => (⟨r.1, r.2⟩ : AttributedSubstring)) ∧
     (AttributedString.new "Hello, world!\nGoodbye, world!".toList).lines.map
        (fun v => v.text (AttributedString.new
          "Hello, world!\nGoodbye, world!".toList)) =
      (splitNl (AttributedString.new
        "Hello, world!\nGoodbye, world!".toList).text).map some ∧
     (AttributedString.new "Hello, world!\nGoodbye, world!".toList).lines.length =
      (AttributedString.new "Hello, world!\nGoodbye, world!".toList).text.count
        '\n' + 1) ∧
    (AttributedString.new "Hello, world!\nGoodbye, world!".toList).lines =
      [⟨0, 13⟩, ⟨14, 29⟩] ∧
    (AttributedString.new "Hello, world!\nGoodbye, world!".toList).lines.map
        (fun v => v.text (AttributedString.new
          "Hello, world!\nGoodbye, world!".toList)) =
      [some "Hello, world!".toList, some "Goodbye, world!".toList] :=
  ⟨lines_splits_on_newline _ (by decide), by decide, by decide⟩

/-- Counterexample to C6 as stated: for the two-byte character text
`"é\nx"`, `lines()` mixes character indices with the byte length: the
first line view `[0,1)` does not hold the segment `"é"` (its byte slice
faults) and the second line view `[2,4)` includes the separator, so the
line texts are not the newline-split segments. -/
theorem lines_multibyte_counterexample :
    (AttributedString.new ['é', '\n', 'x']).lines = [⟨0, 1⟩, ⟨2, 4⟩] ∧
    splitNl ['é', '\n', 'x'] = [['é'], ['x']] ∧
    (AttributedString.new ['é', '\n', 'x']).lines.map
        (fun v => v.text (AttributedString.new ['é', '\n', 'x'])) =
      [none, some ['\n', 'x']] ∧
    (AttributedString.new ['é', '\n', 'x']).lines.map
        (fun v => v.text (AttributedString.new ['é', '\n', 'x'])) ≠
      (splitNl ['é', '\n', 'x']).map some := by
  refine ⟨by decide, by decide, by decide, ?_⟩
  intro h
  rw [show (splitNl ['é', '\n', 'x']).map some =
    [some ['é'], some ['x']] from by decide] at h
  exact absurd h (by decide)

/-! ## The multi-cursor editing surface and the reversible commands

`TextInsertion` and `TextBackspace` (under `src/ui/history/text_field/`)
are translated from the source.  The `TextField` surface they drive
(`CaratSnapshot`, `restore_carat_snapshots`, `carat_snapshots`,
`insert_str`, `backspace`, `replace_text_in_range`) is not part of the
sources, so it is modelled from the spec as marked on each definition. -/

/-- Modelled from the spec: `CaratSnapshot` (spec `CursorSnapshot`, whose
definition is not among the sources): an immutable character index plus
optional half-open selection range, with structural equality. -/
structure CaratSnapshot where
  character_index : Nat
  selection : Option (Nat × Nat)
deriving DecidableEq, Repr

/-- `CursorMovement` (the backspace granularity) from
`ui/view/text_field`, as named by the commands' sources. -/
inductive CursorMovement where
  | Character
  | Word
  | Line
deriving DecidableEq, Repr

/-- Modelled from the spec: the observable state of the editing surface
(text buffer plus live cursor set); the `TextField` type itself is not
among the sources. -/
structure TextFieldState where
  text : List Char
  carats : List CaratSnapshot
deriving DecidableEq, Repr

/-- Modelled from the spec: `restoreCursors(snapshots)` "sets the
surface's live cursor set to exactly these positions/selections". -/
def TextField.restore_carat_snapshots (st : TextFieldState)
    (snapshots : List CaratSnapshot) : TextFieldState :=
  { st with carats := snapshots }

/-- Modelled from the spec: `captureCursors()` "reads current live cursor
set in ascending order". -/
def TextField.carat_snapshots (st : TextFieldState) : List CaratSnapshot :=
  st.carats

/-- Modelled from the spec: one pass of `insertText`'s §4.4 index
algorithm over the live cursors, carrying the running shift `s`: for a
cursor with recorded index `p` the string is inserted at `p + s`, the
cursor's new position is `p + s + len(text)` (with no remaining
selection, as the source tests assert), and `s` grows by `len(text)`;
`none` when an insertion point falls outside the text (the Rust panic). -/
def insertTextAux (ins : List Char) :
    List Char → Nat → List CaratSnapshot →
      Option (List Char × List CaratSnapshot)
  | t, _, [] => some (t, [])
  | t, s, c :: rest =>
    let pos := c.character_index + s
    if pos ≤ t.length then
      match insertTextAux ins (t.take pos ++ ins ++ t.drop pos) (s + ins.length)
          rest with
      | some (tf, cs) => some (tf, ⟨pos + ins.length, none⟩ :: cs)
      | none => none
    else none

/-- Modelled from the spec: `insertText(text)` applies §4.4's index
algorithm at every live cursor. -/
def TextField.insert_str (st : TextFieldState) (ins : List Char) :
    Option TextFieldState :=
  match insertTextAux ins st.text 0 st.carats with
  | some (t, cs) => some ⟨t, cs⟩
  | none => none

/-- Iterate a function `count` times (the spec's provisional reading of
the repeat count for Word/Line granularity: repeat the single-step scan). -/
def iterApply (f : Nat → Nat) : Nat → Nat → Nat
  | 0, e => e
  | k + 1, e => iterApply f k (f e)

/-- Modelled from the spec: scan backward from position `n - 1` while the
character does not satisfy `p`; the result is the index immediately after
the nearest satisfying character, or 0 if none. -/
def scanBack (t : List Char) (p : Char → Bool) : Nat → Nat
  | 0 => 0
  | k + 1 => if p (t.getD k ' ') then k + 1 else scanBack t p k

/-- Modelled from the spec: §4.5's span resolution: the start of the
deletion span ending at `e`, per granularity (`Character`: `max (0, e -
count)`; `Word`: back over the non-whitespace run; `Line`: back to just
after the nearest newline; Word/Line repeat the single-step scan `count`
times per the spec's provisional reading). -/
def deletionStart (t : List Char) (mov : CursorMovement) (count e : Nat) : Nat :=
  match mov with
  | .Character => e - count
  | .Word => iterApply (fun x => scanBack t (fun c => c.isWhitespace) x) count e
  | .Line => iterApply (fun x => scanBack t (fun c => c = '\n') x) count e

/-- Modelled from the spec: one pass of `backspace`'s §4.5 algorithm over
the live cursors, carrying the running shift `s`: effective position
`e = p - s`, span `[start, e)` per granularity, the removed substring is
recorded, the cursor moves to `start` (with no remaining selection), and
`s` grows by the removed length; `none` when `p < s` or `e` overruns the
text (the Rust panics). -/
def backspaceAux (mov : CursorMovement) (count : Nat) :
    List Char → Nat → List CaratSnapshot →
      Option (List Char × List CaratSnapshot × List (List Char))
  | t, _, [] => some (t, [], [])
  | t, s, c :: rest =>
    if c.character_index < s then none
    else
      let e := c.character_index - s
      if e ≤ t.length then
        let start := deletionStart t mov count e
        let removed := (t.drop start).take (e - start)
        match backspaceAux mov count (t.take start ++ t.drop e)
            (s + (e - start)) rest with
        | some (tf, cs, rs) => some (tf, ⟨start, none⟩ :: cs, removed :: rs)
        | none => none
      else none

/-- Modelled from the spec: `backspace(granularity, count)` applies §4.5
at every live cursor and returns the removed fragments in cursor order. -/
def TextField.backspace (st : TextFieldState) (mov : CursorMovement)
    (count : Nat) : Option (TextFieldState × List (List Char)) :=
  match backspaceAux mov count st.text 0 st.carats with
  | some (t, cs, rs) => some (⟨t, cs⟩, rs)
  | none => none

/-- Modelled from the spec: `replaceTextInRange(range, text)` splices the
fragment over the character range (a zero-width range is a pure
insertion); `none` when the range is out of bounds. -/
def replace_text_in_range (t : List Char) (a b : Nat) (ins : List Char) :
    Option (List Char) :=
  if a ≤ b ∧ b ≤ t.length then some (t.take a ++ ins ++ t.drop b) else none

/-- `TextInsertion` from `text_insertion.rs` (the weak view reference is
represented by passing the target state explicitly to `forward`/`backward`). -/
structure TextInsertion where
  text : List Char
  cursors_before : List CaratSnapshot
  cursors_after : List CaratSnapshot
deriving DecidableEq, Repr

/-- `TextInsertion::new`: `cursors_after` starts empty. -/
def TextInsertion.new (text : List Char)
    (cursors_before : List CaratSnapshot) : TextInsertion :=
  ⟨text, cursors_before, []⟩

/-- `TextInsertion::forward`: restore the pre-edit cursors, insert the
string at every cursor, capture the post-edit snapshots. -/
def TextInsertion.forward (cmd : TextInsertion) (st : TextFieldState) :
    Option (TextFieldState × TextInsertion) :=
  match TextField.insert_str
      (TextField.restore_carat_snapshots st cmd.cursors_before) cmd.text with
  | some st2 => some (st2, { cmd with
      cursors_after := TextField.carat_snapshots st2 })
  | none => none

/-- `TextInsertion::backward`: a no-op when no post-edit snapshots were
captured; otherwise restore the post-edit cursors and backspace
`self.text.len()` (the inserted string's *byte* length) characters at
each. -/
def TextInsertion.backward (cmd : TextInsertion) (st : TextFieldState) :
    Option TextFieldState :=
  if cmd.cursors_after.length = 0 then some st
  else
    match TextField.backspace
        (TextField.restore_carat_snapshots st cmd.cursors_after)
        .Character (strLen cmd.text) with
    | some (st2, _) => some st2
    | none => none

/-- `TextBackspace` from `text_backspace.rs`. -/
structure TextBackspace where
  count : Nat
  cursor_movement : CursorMovement
  cursors_before : List CaratSnapshot
  texts_deleted : List (List Char)
  cursors_after : List CaratSnapshot
deriving DecidableEq, Repr

/-- `TextBackspace::new`: `texts_deleted` and `cursors_after` start empty. -/
def TextBackspace.new (count : Nat) (cursor_movement : CursorMovement)
    (cursors_before : List CaratSnapshot) : TextBackspace :=
  ⟨count, cursor_movement, cursors_before, [], []⟩

/-- `TextBackspace::forward`: restore the pre-edit cursors, backspace at
every cursor, record the removed fragments and the post-edit snapshots. -/
def TextBackspace.forward (cmd : TextBackspace) (st : TextFieldState) :
    Option (TextFieldState × TextBackspace) :=
  match TextField.backspace
      (TextField.restore_carat_snapshots st cmd.cursors_before)
      cmd.cursor_movement cmd.count with
  | some (st2, texts) => some (st2, { cmd with
      texts_deleted := texts,
      cursors_after := TextField.carat_snapshots st2 })
  | none => none

/-- Reinsert recorded `(fragment, position)` pairs, the **last** pair
applied first (the source iterates `texts_deleted.iter().enumerate().rev()`):
the head of the list is spliced in last. -/
def reinsertAll (t : List Char) : List (List Char × Nat) → Option (List Char)
  | [] => some t
  | (s, i) :: rest =>
    match reinsertAll t rest with
    | some t1 => replace_text_in_range t1 i i s
    | none => none

/-- `TextBackspace::backward`: a no-op when no post-edit snapshots were
captured; otherwise reinsert each recorded removed fragment at its
recorded post-edit cursor position, last cursor first, then restore the
pre-edit snapshots.  `none` marks the panic of indexing `cursors_after`
past its length. -/
def TextBackspace.backward (cmd : TextBackspace) (st : TextFieldState) :
    Option TextFieldState :=
  if cmd.cursors_after.length = 0 then some st
  else if cmd.cursors_after.length < cmd.texts_deleted.length then none
  else
    match reinsertAll st.text
        (cmd.texts_deleted.zip
          (cmd.cursors_after.map (fun c => c.character_index))) with
    | some t => some (TextField.restore_carat_snapshots { st with text := t }
        cmd.cursors_before)
    | none => none

/-- C4: for both commands, `backward()` on a freshly constructed command
(no successful `forward()` yet) is a no-op that leaves the target state
untouched, detected by the emptiness of the captured post-edit cursor
snapshots, and is defined behaviour (no fault). -/
theorem backward_before_forward_noop (st : TextFieldState) (ins : List Char)
    (C : List CaratSnapshot) (count : Nat) (mov : CursorMovement) :
    (TextInsertion.new ins C).cursors_after = [] ∧
    TextInsertion.backward (TextInsertion.new ins C) st = some st ∧
    (TextBackspace.new count mov C).cursors_after = [] ∧
    TextBackspace.backward (TextBackspace.new count mov C) st = some st :=
  ⟨rfl, rfl, rfl, rfl⟩

/-- The absolute post-insertion cursor position of each cursor under
§4.4's index algorithm: with running shift starting at `σ`, recorded
index `q` becomes `q + σ + L` and the shift grows by `L`. -/
def insCursAbs (L : Nat) : Nat → List Nat → List Nat
  | _, [] => []
  | σ, q :: rest => (q + σ + L) :: insCursAbs L (σ + L) rest

theorem insertTextAux_cursors (ins : List Char) :
    ∀ (ps : List CaratSnapshot) (t : List Char) (σ : Nat)
      (F : List Char) (A : List CaratSnapshot),
      insertTextAux ins t σ ps = some (F, A) →
      A = (insCursAbs ins.length σ (ps.map (fun c => c.character_index))).map
        (fun q => (⟨q, none⟩ : CaratSnapshot)) := by
  intro ps
  induction ps with
  | nil =>
    intro t σ F A h
    simp only [insertTextAux, Option.some.injEq, Prod.mk.injEq] at h
    simp [← h.2, List.map_nil, insCursAbs]
  | cons c rest ih =>
    intro t σ F A h
    simp only [insertTextAux] at h
    split at h
    · rcases hrec : insertTextAux ins
          (t.take (c.character_index + σ) ++ ins ++ t.drop (c.character_index + σ))
          (σ + ins.length) rest with _ | ⟨tf, cs⟩
      · rw [hrec] at h; exact absurd h (by simp)
      · rw [hrec] at h
        simp only [Option.some.injEq, Prod.mk.injEq] at h
        rw [← h.2, List.map_cons]
        show _ = (insCursAbs ins.length σ (c.character_index :: rest.map _)).map _
        rw [show insCursAbs ins.length σ
            (c.character_index :: rest.map (fun c => c.character_index)) =
          (c.character_index + σ + ins.length) ::
            insCursAbs ins.length (σ + ins.length)
              (rest.map (fun c => c.character_index)) from rfl]
        rw [List.map_cons]
        exact congrArg (_ :: ·) (ih _ _ _ _ hrec)
    · exact absurd h (by simp)

/-- C2: under §4.4's algorithm the cursor recorded at index `p`, reached
with accumulated shift `s`, ends at `p + s + len(text)` and the shift
grows by `len(text)` (the positions of all cursors are `insCursAbs`); in
particular on text `"|"` with cursors `[0,1]` and inserted text
`"Hello"`, `forward()` produces `"Hello|Hello"` with cursors `[5,11]`. -/
theorem insertion_index_algorithm :
    (∀ (ins : List Char) (ps : List CaratSnapshot) (t F : List Char)
        (A : List CaratSnapshot),
        insertTextAux ins t 0 ps = some (F, A) →
        A = (insCursAbs ins.length 0 (ps.map (fun c => c.character_index))).map
          (fun q => (⟨q, none⟩ : CaratSnapshot))) ∧
    TextInsertion.forward
        (TextInsertion.new "Hello".toList [⟨0, none⟩, ⟨1, none⟩])
        ⟨"|".toList, []⟩ =
      some (⟨"Hello|Hello".toList, [⟨5, none⟩, ⟨11, none⟩]⟩,
        ⟨"Hello".toList, [⟨0, none⟩, ⟨1, none⟩], [⟨5, none⟩, ⟨11, none⟩]⟩) :=
  ⟨fun ins ps t F A h => insertTextAux_cursors ins ps t 0 F A h, by decide⟩

/-- Witness for C2 at the worked multi-cursor example: the recorded
cursor positions after inserting 5 characters at `[0, 1]` are
`insCursAbs 5 0 [0, 1] = [5, 11]`. -/
theorem insertion_index_algorithm_witness :
    ([⟨5, none⟩, ⟨11, none⟩] : List CaratSnapshot) =
      (insCursAbs "Hello".toList.length 0
        (([⟨0, none⟩, ⟨1, none⟩] : List CaratSnapshot).map
          (fun c => c.character_index))).map
        (fun q => (⟨q, none⟩ : CaratSnapshot)) ∧
    TextInsertion.forward
        (TextInsertion.new "Hello".toList [⟨0, none⟩, ⟨1, none⟩])
        ⟨"|".toList, []⟩ =
      some (⟨"Hello|Hello".toList, [⟨5, none⟩, ⟨11, none⟩]⟩,
        ⟨"Hello".toList, [⟨0, none⟩, ⟨1, none⟩], [⟨5, none⟩, ⟨11, none⟩]⟩) :=
  ⟨insertion_index_algorithm.1 "Hello".toList [⟨0, none⟩, ⟨1, none⟩]
      "|".toList "Hello|Hello".toList [⟨5, none⟩, ⟨11, none⟩] (by decide),
    insertion_index_algorithm.2⟩

theorem scanBack_le (t : List Char) (p : Char → Bool) :
    ∀ n, scanBack t p n ≤ n := by
  intro n
  induction n with
  | zero => simp [scanBack]
  | succ k ih =>
    unfold scanBack
    split
    · omega
    · omega

theorem iterApply_le (f : Nat → Nat) (hf : ∀ x, f x ≤ x) :
    ∀ (k e : Nat), iterApply f k e ≤ e := by
  intro k
  induction k with
  | zero => intro e; simp [iterApply]
  | succ m ih =>
    intro e
    calc iterApply f (m + 1) e = iterApply f m (f e) := rfl
    _ ≤ f e := ih (f e)
    _ ≤ e := hf e

theorem deletionStart_le (t : List Char) (mov : CursorMovement)
    (count e : Nat) : deletionStart t mov count e ≤ e := by
  cases mov with
  | Character => exact Nat.sub_le e count
  | Word => exact iterApply_le _ (fun x => scanBack_le t _ x) count e
  | Line => exact iterApply_le _ (fun x => scanBack_le t _ x) count e

theorem splice_back (t : List Char) (start e : Nat) (h1 : start ≤ e)
    (h2 : e ≤ t.length) :
    replace_text_in_range (t.take start ++ t.drop e) start start
      ((t.drop start).take (e - start)) = some t := by
  have hlenA : (t.take start).length = start := by
    simp [List.length_take]; omega
  unfold replace_text_in_range
  rw [if_pos ⟨le_refl _, by simp [List.length_take, List.length_drop]; omega⟩]
  congr 1
  have e1 : (t.take start ++ t.drop e).take start = t.take start := by
    rw [List.take_append_eq_append_take, hlenA]
    simp [List.take_take]
  have e2 : (t.take start ++ t.drop e).drop start = t.drop e := by
    rw [List.drop_append_eq_append_drop, hlenA]
    have : (t.take start).drop start = [] := by
      apply List.drop_eq_nil_of_le
      omega
    simp [this]
  rw [e1, e2]
  have e3 : t.drop e = (t.drop start).drop (e - start) := by
    rw [List.drop_drop]
    congr 1
    omega
  rw [e3, List.append_assoc]
  rw [show List.take (e - start) (List.drop start t) ++
      List.drop (e - start) (List.drop start t) = List.drop start t from
    List.take_append_drop _ _]
  exact List.take_append_drop _ _

theorem backspaceAux_inverse (mov : CursorMovement) (count : Nat) :
    ∀ (cs : List CaratSnapshot) (t : List Char) (σ : Nat)
      (t2 : List Char) (cs2 : List CaratSnapshot) (rs : List (List Char)),
      backspaceAux mov count t σ cs = some (t2, cs2, rs) →
      cs2.length = cs.length ∧ rs.length = cs.length ∧
      reinsertAll t2 (rs.zip (cs2.map (fun c => c.character_index))) = some t := by
  intro cs
  induction cs with
  | nil =>
    intro t σ t2 cs2 rs h
    simp only [backspaceAux, Option.some.injEq, Prod.mk.injEq] at h
    obtain ⟨h1, h2, h3⟩ := h
    subst h1; subst h2; subst h3
    exact ⟨rfl, rfl, rfl⟩
  | cons c rest ih =>
    intro t σ t2 cs2 rs h
    simp only [backspaceAux] at h
    split at h
    next => exact absurd h (by simp)
    next =>
      split at h
      next he =>
        rcases hrec : backspaceAux mov count
            (t.take (deletionStart t mov count (c.character_index - σ)) ++
              t.drop (c.character_index - σ))
            (σ + (c.character_index - σ -
              deletionStart t mov count (c.character_index - σ))) rest with
          _ | ⟨tf, cs', rs'⟩
        · rw [hrec] at h; exact absurd h (by simp)
        · rw [hrec] at h
          simp only [Option.some.injEq, Prod.mk.injEq] at h
          obtain ⟨ht2, hcs, hrs⟩ := h
          obtain ⟨ihlen1, ihlen2, ihins⟩ := ih _ _ _ _ _ hrec
          subst ht2; subst hcs; subst hrs
          refine ⟨by simpa using ihlen1, by simpa using ihlen2, ?_⟩
          simp only [List.map_cons, List.zip_cons_cons, reinsertAll]
          have hz : List.zipWith Prod.mk rs'
              (cs'.map (fun c => c.character_index)) =
            rs'.zip (cs'.map (fun c => c.character_index)) := rfl
          rw [hz, ihins]
          exact splice_back t _ _ (deletionStart_le _ _ _ _) he
      next => exact absurd h (by simp)

/-- C3: the round trip of the backspace command: whenever
`TextBackspace.forward` succeeds on a fresh command, `backward` (which
reinserts each recorded removed fragment at its recorded post-edit
position, last cursor first, then restores the pre-edit snapshots)
restores exactly the original text and the original cursor snapshots
`C`, for every text, cursor set, granularity and count. -/
theorem backspace_roundtrip (st : TextFieldState) (count : Nat)
    (mov : CursorMovement) (C : List CaratSnapshot) (st1 : TextFieldState)
    (cmd1 : TextBackspace)
    (h : TextBackspace.forward (TextBackspace.new count mov C) st =
      some (st1, cmd1)) :
    TextBackspace.backward cmd1 st1 = some ⟨st.text, C⟩ := by
  unfold TextBackspace.forward TextField.backspace
    TextField.restore_carat_snapshots at h
  dsimp only [TextBackspace.new] at h
  rcases hB : backspaceAux mov count st.text 0 C with _ | ⟨t2, cs2, rs⟩
  · rw [hB] at h; exact absurd h (by simp)
  · rw [hB] at h
    simp only [Option.some.injEq, Prod.mk.injEq, TextField.carat_snapshots] at h
    obtain ⟨hst1, hcmd1⟩ := h
    obtain ⟨hlen1, hlen2, hins⟩ := backspaceAux_inverse mov count C st.text 0
      t2 cs2 rs hB
    subst hst1; subst hcmd1
    unfold TextBackspace.backward
    by_cases hC : cs2.length = 0
    · rw [if_pos (by simpa using hC)]
      have hCnil : C = [] := List.length_eq_zero.1 (hlen1 ▸ hC)
      subst hCnil
      simp only [backspaceAux, Option.some.injEq, Prod.mk.injEq] at hB
      obtain ⟨h1, h2, h3⟩ := hB
      subst h1; subst h2; subst h3
      rfl
    · rw [if_neg (by simpa using hC)]
      rw [if_neg (by simp; omega)]
      simp only
      rw [hins]
      rfl

/-- Witness for C3 at a concrete input: backspacing one character at
cursor 3 of `"abc"` gives `"ab"` with cursor 2, and `backward` restores
`"abc"` with snapshot 3. -/
theorem backspace_roundtrip_witness :
    TextBackspace.backward
        ⟨1, .Character, [⟨3, none⟩], [['c']], [⟨2, none⟩]⟩
        ⟨['a', 'b'], [⟨2, none⟩]⟩ =
      some ⟨['a', 'b', 'c'], [⟨3, none⟩]⟩ :=
  backspace_roundtrip ⟨['a', 'b', 'c'], []⟩ 1 .Character [⟨3, none⟩]
    ⟨['a', 'b'], [⟨2, none⟩]⟩
    ⟨1, .Character, [⟨3, none⟩], [['c']], [⟨2, none⟩]⟩ (by decide)

/-- Counterexample to C1 as stated: the insertion round trip fails at two
concrete inputs allowed by the claim.  With a selection (text `"ab"`,
cursor `(0, [0,1))`, insert `"x"`) the final snapshot is `(0, none)`:
the selection is not restored.  With a multi-byte inserted string (text
`"xé"`, cursor 2, insert `"é"`) `backward` deletes `text.len() = 2` bytes
worth of characters and the final text is `"x"`, not `"xé"`. -/
theorem insertion_roundtrip_counterexample :
    ((TextInsertion.forward (TextInsertion.new ['x'] [⟨0, some (0, 1)⟩])
        ⟨['a', 'b'], []⟩).bind fun r => TextInsertion.backward r.2 r.1) =
      some ⟨['a', 'b'], [⟨0, none⟩]⟩ ∧
    ((TextInsertion.forward (TextInsertion.new ['x'] [⟨0, some (0, 1)⟩])
        ⟨['a', 'b'], []⟩).bind fun r => TextInsertion.backward r.2 r.1) ≠
      some ⟨['a', 'b'], [⟨0, some (0, 1)⟩]⟩ ∧
    ((TextInsertion.forward (TextInsertion.new ['é'] [⟨2, none⟩])
        ⟨['x', 'é'], []⟩).bind fun r => TextInsertion.backward r.2 r.1) =
      some ⟨['x'], [⟨1, none⟩]⟩ ∧
    ((TextInsertion.forward (TextInsertion.new ['é'] [⟨2, none⟩])
        ⟨['x', 'é'], []⟩).bind fun r => TextInsertion.backward r.2 r.1) ≠
      some ⟨['x', 'é'], [⟨2, none⟩]⟩ := by
  refine ⟨by decide, ?_, by decide, ?_⟩ <;> decide

theorem insertTextAux_shift (ins : List Char) :
    ∀ (ps : List CaratSnapshot) (t : List Char) (σ τ : Nat),
      insertTextAux ins t (σ + τ) ps =
        insertTextAux ins t τ
          (ps.map (fun c => ⟨c.character_index + σ, c.selection⟩)) := by
  intro ps
  induction ps with
  | nil => intro t σ τ; rfl
  | cons c rest ih =>
    intro t σ τ
    simp only [insertTextAux, List.map_cons]
    have hpos : c.character_index + (σ + τ) = c.character_index + σ + τ := by
      omega
    rw [hpos]
    have hsh : σ + τ + ins.length = σ + (τ + ins.length) := by omega
    rw [hsh, ih _ σ (τ + ins.length)]

theorem backspaceAux_shift (mov : CursorMovement) (count : Nat) :
    ∀ (ps : List CaratSnapshot) (t : List Char) (σ τ : Nat),
      (∀ c ∈ ps, σ ≤ c.character_index) →
      backspaceAux mov count t (σ + τ) ps =
        backspaceAux mov count t τ
          (ps.map (fun c => ⟨c.character_index - σ, c.selection⟩)) := by
  intro ps
  induction ps with
  | nil => intro t σ τ _; rfl
  | cons c rest ih =>
    intro t σ τ hmem
    have hc : σ ≤ c.character_index := hmem c (by simp)
    simp only [backspaceAux, List.map_cons]
    by_cases hlt : c.character_index - σ < τ
    · rw [if_pos (by omega), if_pos hlt]
    · rw [if_neg (by omega), if_neg hlt]
      have he : c.character_index - (σ + τ) = c.character_index - σ - τ := by
        omega
      rw [he]
      have hsh : σ + τ + (c.character_index - σ - τ -
          deletionStart t mov count (c.character_index - σ - τ)) =
        σ + (τ + (c.character_index - σ - τ -
          deletionStart t mov count (c.character_index - σ - τ))) := by omega
      rw [hsh, ih _ σ _ (fun x hx => hmem x (by simp [hx]))]

theorem take_append_of_le {α : Type _} (P U : List α) (n : Nat)
    (h : P.length ≤ n) : (P ++ U).take n = P ++ U.take (n - P.length) := by
  rw [List.take_append_eq_append_take, List.take_of_length_le h]

theorem drop_append_of_le {α : Type _} (P U : List α) (n : Nat)
    (h : P.length ≤ n) : (P ++ U).drop n = U.drop (n - P.length) := by
  rw [List.drop_append_eq_append_drop, List.drop_eq_nil_of_le h,
    List.nil_append]

theorem insertTextAux_prepend (ins P : List Char) :
    ∀ (n : Nat) (qs : List Nat) (U : List Char), qs.length = n →
      (∀ q ∈ qs, P.length ≤ q) →
      insertTextAux ins (P ++ U) 0
          (qs.map (fun q => (⟨q, none⟩ : CaratSnapshot))) =
        (insertTextAux ins U 0
            (qs.map (fun q => (⟨q - P.length, none⟩ : CaratSnapshot)))).map
          (fun r => (P ++ r.1,
            r.2.map (fun c => ⟨c.character_index + P.length, c.selection⟩))) := by
  intro n
  induction n with
  | zero =>
    intro qs U hlen _
    rw [List.length_eq_zero.1 hlen]
    rfl
  | succ m ih =>
    intro qs U hlen hmem
    rcases qs with _ | ⟨q, rest⟩
    · simp at hlen
    · have hq : P.length ≤ q := hmem q (by simp)
      have hrest : ∀ x ∈ rest, P.length ≤ x := fun x hx => hmem x (by simp [hx])
      have hrlen : rest.length = m := by simpa using hlen
      simp only [List.map_cons, insertTextAux, Nat.add_zero]
      by_cases hcond : q - P.length ≤ U.length
      · rw [if_pos (by simp only [List.length_append]; omega), if_pos hcond]
        rw [take_append_of_le P U q hq, drop_append_of_le P U q hq]
        have htext : P ++ U.take (q - P.length) ++ ins ++ U.drop (q - P.length) =
            P ++ (U.take (q - P.length) ++ ins ++ U.drop (q - P.length)) := by
          simp [List.append_assoc]
        rw [htext]
        have hzl : (0 : Nat) + ins.length = ins.length + 0 := by omega
        simp only [hzl]
        rw [insertTextAux_shift, insertTextAux_shift]
        rw [List.map_map, List.map_map]
        have hc1 : rest.map
            ((fun c : CaratSnapshot =>
              (⟨c.character_index + ins.length, c.selection⟩ : CaratSnapshot)) ∘
              (fun q : Nat => (⟨q, none⟩ : CaratSnapshot))) =
          (rest.map (fun x => x + ins.length)).map
            (fun q => (⟨q, none⟩ : CaratSnapshot)) := by
          rw [List.map_map]
          rfl
        rw [hc1]
        rw [ih (rest.map (fun x => x + ins.length))
          (U.take (q - P.length) ++ ins ++ U.drop (q - P.length))
          (by simpa using hrlen)
          (by
            intro x hx
            obtain ⟨y, hy, rfl⟩ := List.mem_map.1 hx
            have := hrest y hy
            omega)]
        have hc2 : (rest.map (fun x => x + ins.length)).map
            (fun q => (⟨q - P.length, none⟩ : CaratSnapshot)) =
          rest.map
            ((fun c : CaratSnapshot =>
              (⟨c.character_index + ins.length, c.selection⟩ : CaratSnapshot)) ∘
              (fun q : Nat => (⟨q - P.length, none⟩ : CaratSnapshot))) := by
          rw [List.map_map]
          apply List.map_congr_left
          intro x hx
          have := hrest x hx
          show (⟨x + ins.length - P.length, none⟩ : CaratSnapshot) =
            ⟨x - P.length + ins.length, none⟩
          congr 1
          omega
        rw [hc2]
        rcases hE : insertTextAux ins
            (U.take (q - P.length) ++ ins ++ U.drop (q - P.length)) 0
            (rest.map
              ((fun c : CaratSnapshot =>
                (⟨c.character_index + ins.length, c.selection⟩ : CaratSnapshot)) ∘
                (fun q : Nat => (⟨q - P.length, none⟩ : CaratSnapshot)))) with
          _ | ⟨tf, cs⟩
        · rfl
        · show some (P ++ tf, (⟨q + ins.length, none⟩ : CaratSnapshot) ::
              cs.map (fun c => ⟨c.character_index + P.length, c.selection⟩)) = _
          simp only [Option.map_some]
          show _ = some (P ++ tf,
            (⟨q - P.length + ins.length + P.length, none⟩ : CaratSnapshot) ::
              cs.map (fun c => ⟨c.character_index + P.length, c.selection⟩))
          have harith : q - P.length + ins.length + P.length = q + ins.length := by
            omega
          rw [harith]
      · rw [if_neg (by simp only [List.length_append]; omega), if_neg hcond]
        rfl

theorem insCursAbs_length (L : Nat) :
    ∀ (qs : List Nat) (σ : Nat), (insCursAbs L σ qs).length = qs.length := by
  intro qs
  induction qs with
  | nil => intro σ; rfl
  | cons q rest ih => intro σ; simp [insCursAbs, ih]

theorem insCursAbs_getD (L : Nat) :
    ∀ (qs : List Nat) (σ k : Nat), k < qs.length →
      (insCursAbs L σ qs).getD k 0 = qs.getD k 0 + σ + (k + 1) * L := by
  intro qs
  induction qs with
  | nil => intro σ k h; simp at h
  | cons q rest ih =>
    intro σ k h
    cases k with
    | zero => simp [insCursAbs]
    | succ j =>
      show (insCursAbs L (σ + L) rest).getD j 0 = rest.getD j 0 + σ + (j + 2) * L
      rw [ih (σ + L) j (by simpa using h)]
      ring

theorem insCursAbs_mem_ge (L : Nat) :
    ∀ (qs : List Nat) (σ y : Nat), y ∈ insCursAbs L σ qs → σ + L ≤ y := by
  intro qs
  induction qs with
  | nil => intro σ y h; simp [insCursAbs] at h
  | cons q rest ih =>
    intro σ y h
    rcases List.mem_cons.1 h with rfl | hmem
    · omega
    · have := ih (σ + L) y hmem
      omega

theorem insCursAbs_map_sub (L q : Nat) :
    ∀ (qs : List Nat) (σ : Nat), (∀ x ∈ qs, q ≤ x) →
      insCursAbs L σ (qs.map (fun x => x - q)) =
        (insCursAbs L σ qs).map (fun y => y - q) := by
  intro qs
  induction qs with
  | nil => intro σ _; rfl
  | cons x rest ih =>
    intro σ hmem
    have hx : q ≤ x := hmem x (by simp)
    simp only [List.map_cons, insCursAbs]
    rw [show x - q + σ + L = x + σ + L - q from by omega,
      ih (σ + L) (fun y hy => hmem y (by simp [hy]))]

theorem insCursAbs_sub_shift (L q : Nat) :
    ∀ (qs : List Nat) (σ : Nat), (∀ x ∈ qs, q ≤ x) →
      (insCursAbs L σ (qs.map (fun x => x - q))).map (fun y => y + (q + L)) =
        insCursAbs L (σ + L) qs := by
  intro qs
  induction qs with
  | nil => intro σ _; rfl
  | cons x rest ih =>
    intro σ hmem
    have hx : q ≤ x := hmem x (by simp)
    simp only [List.map_cons, insCursAbs]
    rw [show x - q + σ + L + (q + L) = x + (σ + L) + L from by omega,
      ih (σ + L) (fun y hy => hmem y (by simp [hy]))]

theorem insCursAbs_unshift (L : Nat) :
    ∀ (qs : List Nat) (σ : Nat),
      (insCursAbs L (σ + L) qs).map (fun y => y - L) = insCursAbs L σ qs := by
  intro qs
  induction qs with
  | nil => intro σ; rfl
  | cons x rest ih =>
    intro σ
    simp only [List.map_cons, insCursAbs]
    rw [show x + (σ + L) + L - L = x + σ + L from by omega, ih (σ + L)]

theorem getD_map {α β : Type _} (f : α → β) (l : List α) (k : Nat) (d : α)
    (d2 : β) (h : k < l.length) : (l.map f).getD k d2 = f (l.getD k d) := by
  induction l generalizing k with
  | nil => simp at h
  | cons x xs ih =>
    cases k with
    | zero => rfl
    | succ j =>
      simp only [List.map_cons, List.getD_cons_succ]
      exact ih j (by simpa using h)

theorem getD_eq_get_snap (l : List CaratSnapshot) (k : Nat)
    (h : k < l.length) : l.getD k ⟨0, none⟩ = l.get ⟨k, h⟩ := by
  induction l generalizing k with
  | nil => simp at h
  | cons x xs ih =>
    cases k with
    | zero => rfl
    | succ j =>
      simp only [List.getD_cons_succ, List.get_cons_succ]
      exact ih j (by simpa using h)

theorem getD_eq_get' {α : Type _} (l : List α) (d : α) (k : Nat)
    (h : k < l.length) : l.getD k d = l.get ⟨k, h⟩ := by
  induction l generalizing k with
  | nil => simp at h
  | cons x xs ih =>
    cases k with
    | zero => rfl
    | succ j =>
      simp only [List.getD_cons_succ, List.get_cons_succ]
      exact ih j (by simpa using h)

theorem backspaceAux_prepend_char (count : Nat) (P : List Char) :
    ∀ (n : Nat) (ps : List CaratSnapshot) (U : List Char), ps.length = n →
      (∀ k, k < ps.length →
        P.length + count * (k + 1) ≤ (ps.getD k ⟨0, none⟩).character_index) →
      backspaceAux .Character count (P ++ U) 0 ps =
        (backspaceAux .Character count U 0
            (ps.map (fun c => ⟨c.character_index - P.length, c.selection⟩))).map
          (fun r => (P ++ r.1,
            r.2.1.map (fun c => ⟨c.character_index + P.length, c.selection⟩),
            r.2.2)) := by
  intro n
  induction n with
  | zero =>
    intro ps U hlen _
    rw [List.length_eq_zero.1 hlen]
    rfl
  | succ m ih =>
    intro ps U hlen hidx
    rcases ps with _ | ⟨c, rest⟩
    · simp at hlen
    · have hrlen : rest.length = m := by simpa using hlen
      have h0 : P.length + count ≤ c.character_index := by
        have := hidx 0 (by simp)
        simpa using this
      have hrest_k : ∀ k, k < rest.length →
          P.length + count * (k + 2) ≤
            (rest.getD k ⟨0, none⟩).character_index := by
        intro k hk
        have := hidx (k + 1) (by simpa using hk)
        simpa [List.getD_cons_succ] using this
      have hmemc : ∀ x ∈ rest, count ≤ x.character_index := by
        intro x hx
        obtain ⟨⟨k, hk⟩, rfl⟩ := List.mem_iff_get.1 hx
        have h1 := hrest_k k hk
        rw [getD_eq_get_snap rest k hk] at h1
        have h2 : count * (k + 2) = count * (k + 1) + count := by ring
        have h3 : 0 ≤ count * (k + 1) := Nat.zero_le _
        omega
      simp only [backspaceAux, List.map_cons, deletionStart, Nat.sub_zero]
      rw [if_neg (Nat.not_lt_zero _), if_neg (Nat.not_lt_zero _)]
      by_cases hcond : c.character_index - P.length ≤ U.length
      · rw [if_pos (by simp only [List.length_append]; omega), if_pos hcond]
        rw [take_append_of_le P U (c.character_index - count) (by omega),
          drop_append_of_le P U c.character_index (by omega),
          drop_append_of_le P U (c.character_index - count) (by omega)]
        have htext : P ++ U.take (c.character_index - count - P.length) ++
            U.drop (c.character_index - P.length) =
          P ++ (U.take (c.character_index - count - P.length) ++
            U.drop (c.character_index - P.length)) := by
          simp [List.append_assoc]
        rw [htext]
        have hrem : c.character_index - (c.character_index - count) = count := by
          omega
        have hrem2 : c.character_index - P.length -
            (c.character_index - P.length - count) = count := by omega
        have hstart2 : c.character_index - count - P.length =
            c.character_index - P.length - count := by omega
        rw [hrem, hrem2, hstart2]
        have hsh : (0 : Nat) + count = count + 0 := by omega
        simp only [hsh]
        rw [backspaceAux_shift .Character count rest _ count 0 hmemc,
          backspaceAux_shift .Character count
            (rest.map (fun c => ⟨c.character_index - P.length, c.selection⟩)) _
            count 0
            (by
              intro x hx
              obtain ⟨y, hy, rfl⟩ := List.mem_map.1 hx
              have h1 := hmemc y hy
              obtain ⟨⟨k, hk⟩, rfl⟩ := List.mem_iff_get.1 hy
              have h2 := hrest_k k hk
              rw [getD_eq_get_snap rest k hk] at h2
              have h3 : count * (k + 2) = count * (k + 1) + count := by ring
              have h4 : 0 ≤ count * (k + 1) := Nat.zero_le _
              simp only
              omega)]
        rw [List.map_map]
        rw [ih (rest.map (fun c : CaratSnapshot =>
            (⟨c.character_index - count, c.selection⟩ : CaratSnapshot)))
          (U.take (c.character_index - P.length - count) ++
            U.drop (c.character_index - P.length))
          (by simpa using hrlen)
          (by
            intro k hk
            simp only [List.length_map] at hk
            rw [getD_map _ rest k ⟨0, none⟩ _ hk]
            have h1 := hrest_k k hk
            have h2 : count * (k + 2) = count * (k + 1) + count := by ring
            simp only
            omega)]
        have hc2 : (rest.map (fun c : CaratSnapshot =>
            (⟨c.character_index - count, c.selection⟩ : CaratSnapshot))).map
              (fun c => (⟨c.character_index - P.length, c.selection⟩ :
                CaratSnapshot)) =
          rest.map ((fun c : CaratSnapshot =>
            (⟨c.character_index - count, c.selection⟩ : CaratSnapshot)) ∘
              (fun c : CaratSnapshot =>
                (⟨c.character_index - P.length, c.selection⟩ : CaratSnapshot))) := by
          rw [List.map_map]
          apply List.map_congr_left
          intro x _
          show (⟨x.character_index - count - P.length, x.selection⟩ :
            CaratSnapshot) = ⟨x.character_index - P.length - count, x.selection⟩
          congr 1
          omega
        rw [hc2]
        rcases hE : backspaceAux .Character count
            (U.take (c.character_index - P.length - count) ++
              U.drop (c.character_index - P.length)) 0
            (rest.map ((fun c : CaratSnapshot =>
              (⟨c.character_index - count, c.selection⟩ : CaratSnapshot)) ∘
                (fun c : CaratSnapshot =>
                  (⟨c.character_index - P.length, c.selection⟩ :
                    CaratSnapshot)))) with
          _ | ⟨tf, cs, rs⟩
        · rfl
        · have harith : c.character_index - P.length - count + P.length =
              c.character_index - count := by omega
          show some (P ++ tf,
              (⟨c.character_index - count, none⟩ : CaratSnapshot) ::
                cs.map (fun c => ⟨c.character_index + P.length, c.selection⟩),
              List.take count
                (List.drop (c.character_index - P.length - count) U) :: rs) = _
          show _ = some (P ++ tf,
              (⟨c.character_index - P.length - count + P.length, none⟩ :
                CaratSnapshot) ::
                cs.map (fun c => ⟨c.character_index + P.length, c.selection⟩),
              List.take count
                (List.drop (c.character_index - P.length - count) U) :: rs)
          rw [harith]
      · rw [if_neg (by simp only [List.length_append]; omega), if_neg hcond]
        rfl

theorem ins_back_exact (ins : List Char) :
    ∀ (n : Nat) (qs : List Nat) (T : List Char), qs.length = n →
      List.Pairwise (· ≤ ·) qs → (∀ q ∈ qs, q ≤ T.length) →
      ∃ F : List Char,
        insertTextAux ins T 0
            (qs.map (fun q => (⟨q, none⟩ : CaratSnapshot))) =
          some (F, (insCursAbs ins.length 0 qs).map
            (fun q => (⟨q, none⟩ : CaratSnapshot))) ∧
        backspaceAux .Character ins.length F 0
            ((insCursAbs ins.length 0 qs).map
              (fun q => (⟨q, none⟩ : CaratSnapshot))) =
          some (T, qs.map (fun q => (⟨q, none⟩ : CaratSnapshot)),
            List.replicate qs.length ins) := by
  intro n
  induction n with
  | zero =>
    intro qs T hlen _ _
    rw [List.length_eq_zero.1 hlen]
    exact ⟨T, rfl, rfl⟩
  | succ m ih =>
    intro qs T hlen hsort hbnd
    rcases qs with _ | ⟨q, rest⟩
    · simp at hlen
    · have hrlen : rest.length = m := by simpa using hlen
      have hq : q ≤ T.length := hbnd q (by simp)
      have hqrest : ∀ x ∈ rest, q ≤ x := by
        intro x hx
        exact (List.pairwise_cons.1 hsort).1 x hx
      have hTq : (T.take q).length = q := by
        rw [List.length_take, Nat.min_eq_left hq]
      have hPlen : (T.take q ++ ins).length = q + ins.length := by
        rw [List.length_append, hTq]
      obtain ⟨F', hIns', hBack'⟩ := ih (rest.map (fun x => x - q)) (T.drop q)
        (by simpa using hrlen)
        ((List.pairwise_cons.1 hsort).2.map _
          (fun _ _ hab => Nat.sub_le_sub_right hab q))
        (by
          intro x hx
          obtain ⟨y, hy, rfl⟩ := List.mem_map.1 hx
          have := hbnd y (by simp [hy])
          simp only [List.length_drop]
          omega)
      refine ⟨T.take q ++ ins ++ F', ?_, ?_⟩
      · simp only [List.map_cons, insertTextAux, Nat.add_zero]
        rw [if_pos hq]
        have hz : (0 : Nat) + ins.length = ins.length + 0 := by omega
        simp only [hz]
        rw [insertTextAux_shift, List.map_map]
        have hcomp1 : rest.map
            ((fun c : CaratSnapshot =>
              (⟨c.character_index + ins.length, c.selection⟩ : CaratSnapshot)) ∘
              (fun q : Nat => (⟨q, none⟩ : CaratSnapshot))) =
          (rest.map (fun x => x + ins.length)).map
            (fun q : Nat => (⟨q, none⟩ : CaratSnapshot)) := by
          rw [List.map_map]
          rfl
        rw [hcomp1]
        rw [insertTextAux_prepend ins (T.take q ++ ins)
          (rest.map (fun x => x + ins.length)).length
          (rest.map (fun x => x + ins.length)) (T.drop q) rfl
          (by
            intro x hx
            obtain ⟨y, hy, rfl⟩ := List.mem_map.1 hx
            have := hqrest y hy
            rw [hPlen]
            omega)]
        simp only [hPlen]
        have hsub1 : (rest.map (fun x => x + ins.length)).map
            (fun x : Nat => (⟨x - (q + ins.length), none⟩ : CaratSnapshot)) =
          (rest.map (fun x => x - q)).map
            (fun x : Nat => (⟨x, none⟩ : CaratSnapshot)) := by
          rw [List.map_map, List.map_map]
          apply List.map_congr_left
          intro x _
          show (⟨x + ins.length - (q + ins.length), none⟩ : CaratSnapshot) =
            ⟨x - q, none⟩
          congr 1
          omega
        rw [hsub1, hIns']
        simp only [Option.map_some, List.map_cons, insCursAbs, Nat.zero_add,
          Nat.add_zero]
        have htail : ((insCursAbs ins.length 0 (rest.map (fun x => x - q))).map
            (fun q : Nat => (⟨q, none⟩ : CaratSnapshot))).map
              (fun c => (⟨c.character_index + (q + ins.length), c.selection⟩ :
                CaratSnapshot)) =
          (insCursAbs ins.length ins.length rest).map
            (fun q : Nat => (⟨q, none⟩ : CaratSnapshot)) := by
          rw [List.map_map]
          have hcomp2 : ((fun c : CaratSnapshot =>
              (⟨c.character_index + (q + ins.length), c.selection⟩ :
                CaratSnapshot)) ∘
              (fun q : Nat => (⟨q, none⟩ : CaratSnapshot))) =
            ((fun q : Nat => (⟨q, none⟩ : CaratSnapshot)) ∘
              (fun y : Nat => y + (q + ins.length))) := rfl
          rw [hcomp2, ← List.map_map]
          have hss := insCursAbs_sub_shift ins.length q rest 0 hqrest
          rw [hss]
          simp
        show some (T.take q ++ ins ++ F',
            (⟨q + ins.length, none⟩ : CaratSnapshot) ::
              ((insCursAbs ins.length 0 (rest.map (fun x => x - q))).map
                (fun q : Nat => (⟨q, none⟩ : CaratSnapshot))).map
                (fun c => (⟨c.character_index + (q + ins.length),
                  c.selection⟩ : CaratSnapshot))) = _
        rw [htail]
      · simp only [List.map_cons, insCursAbs, Nat.zero_add, Nat.add_zero,
          List.length_cons, List.replicate_succ]
        simp only [backspaceAux, deletionStart, Nat.sub_zero]
        rw [if_neg (Nat.not_lt_zero _)]
        rw [if_pos (by
          simp only [List.length_append, hTq]
          omega)]
        have hstart : q + ins.length - ins.length = q := by omega
        simp only [hstart]
        have hrem : q + ins.length - q = ins.length := by omega
        simp only [hrem]
        have hdropq : (T.take q ++ ins ++ F').drop q = ins ++ F' := by
          rw [List.append_assoc, drop_append_of_le (T.take q) _ q (by omega)]
          simp [hTq]
        have htakeq : (T.take q ++ ins ++ F').take q = T.take q := by
          rw [List.append_assoc, take_append_of_le (T.take q) _ q (by omega)]
          simp [hTq]
        have hdropqL : (T.take q ++ ins ++ F').drop (q + ins.length) = F' := by
          rw [drop_append_of_le (T.take q ++ ins) F' _ (by omega)]
          simp [hPlen]
        rw [hdropq, htakeq, hdropqL, List.take_left]
        have hz : (0 : Nat) + ins.length = ins.length + 0 := by omega
        simp only [hz]
        rw [backspaceAux_shift .Character ins.length _ _ ins.length 0
          (by
            intro x hx
            obtain ⟨y, hy, rfl⟩ := List.mem_map.1 hx
            have := insCursAbs_mem_ge ins.length rest ins.length y hy
            show ins.length ≤ y
            omega)]
        rw [List.map_map]
        have hcomp3 : (insCursAbs ins.length ins.length rest).map
            ((fun c : CaratSnapshot =>
              (⟨c.character_index - ins.length, c.selection⟩ : CaratSnapshot)) ∘
              (fun q : Nat => (⟨q, none⟩ : CaratSnapshot))) =
          (insCursAbs ins.length 0 rest).map
            (fun q : Nat => (⟨q, none⟩ : CaratSnapshot)) := by
          have hcc : ((fun c : CaratSnapshot =>
              (⟨c.character_index - ins.length, c.selection⟩ : CaratSnapshot)) ∘
              (fun q : Nat => (⟨q, none⟩ : CaratSnapshot))) =
            ((fun q : Nat => (⟨q, none⟩ : CaratSnapshot)) ∘
              (fun y : Nat => y - ins.length)) := rfl
          rw [hcc, ← List.map_map]
          have hun := insCursAbs_unshift ins.length rest 0
          simp only [Nat.zero_add] at hun
          rw [hun]
        rw [hcomp3]
        rw [backspaceAux_prepend_char ins.length (T.take q) rest.length
          ((insCursAbs ins.length 0 rest).map
            (fun q : Nat => (⟨q, none⟩ : CaratSnapshot))) F'
          (by rw [List.length_map, insCursAbs_length])
          (by
            intro k hk
            rw [List.length_map, insCursAbs_length] at hk
            rw [getD_map (fun q : Nat => (⟨q, none⟩ : CaratSnapshot))
              (insCursAbs ins.length 0 rest) k 0 ⟨0, none⟩
              (by rw [insCursAbs_length]; exact hk)]
            show (T.take q).length + ins.length * (k + 1) ≤
              (insCursAbs ins.length 0 rest).getD k 0
            rw [insCursAbs_getD ins.length rest 0 k hk, hTq]
            have hqd : q ≤ rest.getD k 0 := by
              rw [getD_eq_get' rest 0 k hk]
              exact hqrest _ (List.mem_iff_get.2 ⟨⟨k, hk⟩, rfl⟩)
            have hmul : ins.length * (k + 1) = (k + 1) * ins.length :=
              Nat.mul_comm _ _
            omega)]
        simp only [hTq]
        have hcomp4 : ((insCursAbs ins.length 0 rest).map
            (fun q : Nat => (⟨q, none⟩ : CaratSnapshot))).map
              (fun c : CaratSnapshot =>
                (⟨c.character_index - q, c.selection⟩ : CaratSnapshot)) =
          (insCursAbs ins.length 0 (rest.map (fun x => x - q))).map
            (fun q : Nat => (⟨q, none⟩ : CaratSnapshot)) := by
          rw [List.map_map]
          have hcc : ((fun c : CaratSnapshot =>
              (⟨c.character_index - q, c.selection⟩ : CaratSnapshot)) ∘
              (fun q : Nat => (⟨q, none⟩ : CaratSnapshot))) =
            ((fun q : Nat => (⟨q, none⟩ : CaratSnapshot)) ∘
              (fun y : Nat => y - q)) := rfl
          rw [hcc, ← List.map_map, insCursAbs_map_sub ins.length q rest 0 hqrest]
        rw [hcomp4, hBack']
        simp only [List.length_map]
        have hcursors : ((rest.map (fun x => x - q)).map
            (fun q : Nat => (⟨q, none⟩ : CaratSnapshot))).map
              (fun c : CaratSnapshot =>
                (⟨c.character_index + q, c.selection⟩ : CaratSnapshot)) =
          rest.map (fun q : Nat => (⟨q, none⟩ : CaratSnapshot)) := by
          rw [List.map_map, List.map_map]
          apply List.map_congr_left
          intro x hx
          have := hqrest x hx
          show (⟨x - q + q, none⟩ : CaratSnapshot) = ⟨x, none⟩
          congr 1
          omega
        show some (T.take q ++ T.drop q,
            (⟨q, none⟩ : CaratSnapshot) ::
              ((rest.map (fun x => x - q)).map
                (fun q : Nat => (⟨q, none⟩ : CaratSnapshot))).map
                (fun c : CaratSnapshot =>
                  (⟨c.character_index + q, c.selection⟩ : CaratSnapshot)),
            ins :: List.replicate rest.length ins) = _
        rw [hcursors,
          show T.take q ++ T.drop q = T from List.take_append_drop q T]

/-- C1 (amended): the insertion round trip holds for every cursor
snapshot set `C` in ascending index order with no selections and
in-bounds indices, and every inserted string of single-byte characters:
`forward()` then `backward()` restores exactly the original text and the
original snapshots `C`.  (As stated the claim fails: a selection is not
restored, because `forward` clears it and `backward` cannot recover it,
and a multi-byte inserted string makes `backward` delete `text.len()`
bytes worth of characters; see the counterexample.) -/
theorem insertion_roundtrip (st : TextFieldState) (T ins : List Char)
    (C : List CaratSnapshot)
    (htext : st.text = T)
    (hsorted : List.Pairwise
      (fun a b => a.character_index ≤ b.character_index) C)
    (hsel : ∀ c ∈ C, c.selection = none)
    (hbnd : ∀ c ∈ C, c.character_index ≤ T.length)
    (hbyte : ∀ ch ∈ ins, charSize ch = 1) :
    ((TextInsertion.forward (TextInsertion.new ins C) st).bind
      fun r => TextInsertion.backward r.2 r.1) =
      some ⟨T, C⟩ := by
  have hC : (C.map (fun c => c.character_index)).map
      (fun q : Nat => (⟨q, none⟩ : CaratSnapshot)) = C := by
    rw [List.map_map]
    conv_rhs => rw [← List.map_id C]
    apply List.map_congr_left
    intro c hc
    have hcs := hsel c hc
    show (⟨c.character_index, none⟩ : CaratSnapshot) = id c
    cases c
    simp only at hcs
    simp [hcs]
  obtain ⟨F, hF1, hF2⟩ := ins_back_exact ins
    (C.map (fun c => c.character_index)).length
    (C.map (fun c => c.character_index)) T rfl
    (List.pairwise_map.2 hsorted)
    (by
      intro x hx
      obtain ⟨c, hc, rfl⟩ := List.mem_map.1 hx
      exact hbnd c hc)
  rw [hC] at hF1
  unfold TextInsertion.forward TextInsertion.new TextField.insert_str
    TextField.restore_carat_snapshots
  simp only [htext]
  rw [hF1]
  show TextInsertion.backward
      ⟨ins, C, (insCursAbs ins.length 0
        (C.map (fun c => c.character_index))).map
          (fun q : Nat => (⟨q, none⟩ : CaratSnapshot))⟩
      ⟨F, (insCursAbs ins.length 0 (C.map (fun c => c.character_index))).map
        (fun q : Nat => (⟨q, none⟩ : CaratSnapshot))⟩ = some ⟨T, C⟩
  rw [hC] at hF2
  rcases C with _ | ⟨c0, Crest⟩
  · have hFT : T = F := by
      simp only [List.map_nil, insertTextAux, Option.some.injEq,
        Prod.mk.injEq] at hF1
      exact hF1.1
    subst hFT
    rfl
  · unfold TextInsertion.backward
    rw [if_neg (by
      simp only [List.length_map, insCursAbs_length, List.length_cons]
      omega)]
    unfold TextField.backspace TextField.restore_carat_snapshots
    rw [strLen_eq_length hbyte]
    simp only
    rw [hF2]


/-- Witness for C1's amended statement at a concrete input: inserting
`"x"` at cursor 1 of `"ab"` and undoing restores `"ab"` with snapshot 1. -/
theorem insertion_roundtrip_witness :
    ((TextInsertion.forward (TextInsertion.new ['x'] [⟨1, none⟩])
        ⟨['a', 'b'], []⟩).bind fun r => TextInsertion.backward r.2 r.1) =
      some ⟨['a', 'b'], [⟨1, none⟩]⟩ :=
  insertion_roundtrip ⟨['a', 'b'], []⟩ ['a', 'b'] ['x'] [⟨1, none⟩] rfl
    (by decide) (by decide) (by decide) (by decide)

end Pelican
